import Mathlib

/-!
Verification of the AptiPro practice-session core and dashboard logic.

The definitions below are a shallow embedding of the TypeScript source:
  - `src/components/Practice.tsx` (practice-test state machine),
  - `src/components/Dashboard.tsx` (topic-suggestion logic),
  - the leaderboard rank computation (Leaderboard component).
JavaScript arrays become `List`, nullable values become `Option`, the
backend calls become explicit effect records, and the `number` fields of
database rows become `Int` (exact rational arithmetic models the
accuracy division in the dashboard).
-/

namespace Aptii

/-- Question record, from `types.ts`. -/
structure Question where
  question : String
  options : List String
  correctAnswer : String
  explanation : String
deriving DecidableEq, Repr, Inhabited

/-- The `TestState` union type of `Practice.tsx`. -/
inductive TestState where
  | notStarted
  | loading
  | inProgress
  | completed
deriving DecidableEq, Repr

/-- The component state of `Practice.tsx`: one field per `useState` hook,
plus the profile score held by the auth context (`setProfile` target). -/
structure CompState where
  testState : TestState
  questions : List Question
  currentQuestionIndex : Nat
  answers : List (Option String)
  showExplanation : Bool
  timeLeft : Nat
  saveError : Option String
  profileScore : Option Int
deriving DecidableEq, Repr

/-- Row written by the `test_results` insert in `handleCompletion`. -/
structure InsertRecord where
  user_id : String
  topic : String
  score : Nat
  total_questions : Nat
deriving DecidableEq, Repr

/-- Backend calls issued by one operation: `test_results` inserts and
`increment_user_score` RPC calls (by increment value). -/
structure Effects where
  inserts : List InsertRecord
  rpcs : List Nat
deriving DecidableEq, Repr

/-- No backend call. -/
def noEffects : Effects := ⟨[], []⟩

/-- Environment of `handleCompletion`: the signed-in user id (if any), the
selected topic name (if the route matches one), and the outcome the
backend would return for the insert and for the RPC. -/
structure Env where
  user : Option String
  selectedTopic : Option String
  insertError : Option String
  rpcError : Option String

/-- JavaScript strict equality `ans === q.correctAnswer` where `ans` is a
string or `null`: `null` is never equal to any string. -/
def strictEq : Option String → String → Bool
  | none, _ => false
  | some a, b => a == b

/-- Index-carrying helper for the filter in
`answers.filter((ans, i) => questions[i] && ans === questions[i].correctAnswer).length`
(line 67 of `Practice.tsx`): an out-of-range `questions[i]` is `undefined`,
hence falsy, and the position is not counted. -/
def scoreAux (questions : List Question) : List (Option String) → Nat → Nat
  | [], _ => 0
  | ans :: rest, i =>
      (if (match questions[i]? with
           | some q => strictEq ans q.correctAnswer
           | none => false) then 1 else 0) + scoreAux questions rest (i + 1)

/-- The score computed at completion (line 67 of `Practice.tsx`). -/
def computeScore (questions : List Question) (answers : List (Option String)) : Nat :=
  scoreAux questions answers 0

/-- Index-carrying helper for the completed view's score expression
(line 157 of `Practice.tsx`), which reads `questions[i].correctAnswer`
without the falsy guard: `none` models the TypeError thrown when
`questions[i]` is `undefined`. -/
def viewScoreAux (questions : List Question) : List (Option String) → Nat → Option Nat
  | [], _ => some 0
  | ans :: rest, i =>
      match questions[i]? with
      | none => none
      | some q =>
          (viewScoreAux questions rest (i + 1)).map
            (fun n => (if strictEq ans q.correctAnswer then 1 else 0) + n)

/-- The score the completed view displays (line 157 of `Practice.tsx`). -/
def viewScore (questions : List Question) (answers : List (Option String)) : Option Nat :=
  viewScoreAux questions answers 0

/-- The `handleCompletion` async function of `Practice.tsx` (lines 63-100),
as a pure function from environment and state to new state plus issued
backend calls.  The `try/catch` becomes explicit error branching: a
reported error sets `saveError` and stops the sequence. -/
def handleCompletion (env : Env) (s : CompState) : CompState × Effects :=
  if s.testState = .completed then (s, noEffects)
  else
    let s1 := { s with testState := .completed }
    let score := computeScore s1.questions s1.answers
    let s2 := { s1 with saveError := none }
    match env.selectedTopic, env.user with
    | some topic, some uid =>
        let ins : InsertRecord :=
          { user_id := uid, topic := topic, score := score,
            total_questions := s2.questions.length }
        match env.insertError with
        | some e => ({ s2 with saveError := some e }, ⟨[ins], []⟩)
        | none =>
            let pointsEarned := score * 100
            if 0 < pointsEarned then
              match env.rpcError with
              | some e => ({ s2 with saveError := some e }, ⟨[ins], [pointsEarned]⟩)
              | none =>
                  ({ s2 with profileScore :=
                        s2.profileScore.map (fun sc => sc + (pointsEarned : Int)) },
                   ⟨[ins], [pointsEarned]⟩)
            else (s2, ⟨[ins], []⟩)
    | _, _ => (s2, noEffects)

/-- The tail of `startTest` (lines 102-119 of `Practice.tsx`) once the
question fetch has resolved to `fetched`. -/
def startTestFetched (s : CompState) (fetched : List Question) : CompState :=
  let s1 := { s with testState := .loading, saveError := none }
  if 0 < fetched.length then
    { s1 with
        questions := fetched,
        answers := List.replicate fetched.length none,
        currentQuestionIndex := 0,
        showExplanation := false,
        timeLeft := 300,
        testState := .inProgress }
  else { s1 with testState := .notStarted }

/-- JavaScript array index assignment `arr[i] = v`: in range it overwrites,
out of range it extends the array with holes (read back as `undefined`,
modelled `none`). -/
def jsArraySet (l : List (Option String)) (i : Nat) (v : Option String) :
    List (Option String) :=
  if i < l.length then l.set i v
  else l ++ List.replicate (i - l.length) none ++ [v]

/-- The `handleAnswer` function of `Practice.tsx` (lines 121-126).  Note
that it contains no check of `testState`. -/
def handleAnswer (s : CompState) (option : String) : CompState :=
  { s with
      answers := jsArraySet s.answers s.currentQuestionIndex (some option),
      showExplanation := true }

/-- The `goToNextQuestion` function of `Practice.tsx` (lines 128-135). -/
def goToNextQuestion (env : Env) (s : CompState) : CompState × Effects :=
  if s.currentQuestionIndex < s.questions.length - 1 then
    ({ s with showExplanation := false,
              currentQuestionIndex := s.currentQuestionIndex + 1 }, noEffects)
  else handleCompletion env { s with showExplanation := false }

/-- The `resetTest` function of `Practice.tsx` (lines 137-141). -/
def resetTest (s : CompState) : CompState :=
  { s with testState := .notStarted, questions := [] }

/-- The timer effect of `Practice.tsx` (lines 53-61): while in progress a
positive clock decrements once per second; a zero clock triggers
completion. -/
def tick (env : Env) (s : CompState) : CompState × Effects :=
  if s.testState = .inProgress ∧ 0 < s.timeLeft then
    ({ s with timeLeft := s.timeLeft - 1 }, noEffects)
  else if s.timeLeft = 0 ∧ s.testState = .inProgress then
    handleCompletion env s
  else (s, noEffects)

/-- Events the rendered component can receive: the question fetch
resolving, a click on an option button, on the next/finish button, on a
reset button, and a timer tick. -/
inductive Event where
  | fetched (qs : List Question)
  | clickOption (option : String)
  | clickNext
  | clickReset
  | timerTick
deriving DecidableEq

/-- Whether an event is the session-initialization event. -/
def Event.isStart : Event → Bool
  | .fetched _ => true
  | _ => false

/-- One step of the component under an event, gated exactly as the render
of `Practice.tsx` gates its handlers: option buttons exist only in the
in-progress view (and are disabled once the explanation shows), the
next/finish button only with the explanation visible, reset buttons in
the in-progress and completed views. -/
def step (env : Env) (e : Event) (s : CompState) : CompState × Effects :=
  match e with
  | .fetched qs => (startTestFetched s qs, noEffects)
  | .clickOption o =>
      match s.questions[s.currentQuestionIndex]? with
      | some q =>
          if s.testState = .inProgress ∧ 0 < s.questions.length ∧
              s.showExplanation = false ∧ o ∈ q.options then
            (handleAnswer s o, noEffects)
          else (s, noEffects)
      | none => (s, noEffects)
  | .clickNext =>
      if s.testState = .inProgress ∧ 0 < s.questions.length ∧
          s.showExplanation = true then
        goToNextQuestion env s
      else (s, noEffects)
  | .clickReset =>
      if s.testState = .completed ∨
          (s.testState = .inProgress ∧ 0 < s.questions.length) then
        (resetTest s, noEffects)
      else (s, noEffects)
  | .timerTick => tick env s

/-- The initial `useState` values of `Practice.tsx` (profile score left
abstract as `p`). -/
def initialState (p : Option Int) : CompState :=
  { testState := .notStarted, questions := [], currentQuestionIndex := 0,
    answers := [], showExplanation := false, timeLeft := 300,
    saveError := none, profileScore := p }

/-- Session invariant: once a session is running or completed, the answer
array has one slot per question; while running, the cursor is in range;
once completed, the cursor never exceeds the question count. -/
def Inv (s : CompState) : Prop :=
  (s.testState = .inProgress ∨ s.testState = .completed →
      s.answers.length = s.questions.length) ∧
  (s.testState = .inProgress → s.currentQuestionIndex < s.questions.length) ∧
  (s.testState = .completed → s.currentQuestionIndex ≤ s.questions.length)

instance (s : CompState) : Decidable (Inv s) := by
  unfold Inv; infer_instance

/-- What the completed view of `Practice.tsx` (lines 156-175) displays:
the score line, the total, the XP line (absent when `saveError` is set,
in which case the remediation panel shows instead). -/
structure CompletedView where
  scoreShown : Option Nat
  totalShown : Nat
  xpShown : Option Nat
  errorShown : Option String
deriving DecidableEq, Repr

/-- Render of the completed view of `Practice.tsx` (lines 156-175). -/
def renderCompleted (s : CompState) : CompletedView :=
  { scoreShown := viewScore s.questions s.answers
    totalShown := s.questions.length
    xpShown :=
      match s.saveError with
      | some _ => none
      | none => (viewScore s.questions s.answers).map (fun n => n * 100)
    errorShown := s.saveError }

/-- Leaderboard profile row (`profiles` table as selected by the
Leaderboard component). -/
structure ProfileRow where
  id : String
  username : Option String
  avatar_url : Option String
  score : Int
deriving DecidableEq, Repr

/-- The rank count query of `fetchLeaderboardData`: the backend counts
the rows of `profiles` whose `score` is strictly greater than the given
score (`.gt('score', profile.score)` with an exact count). -/
def countProfilesAbove (table : List ProfileRow) (myScore : Int) : Nat :=
  (table.filter (fun p => myScore < p.score)).length

/-- The rank the Leaderboard component displays for the current user:
`setUserRank((count ?? 0) + 1)`. -/
def computeUserRank (table : List ProfileRow) (profile : ProfileRow) : Nat :=
  countProfilesAbove table profile.score + 1

/-- A `test_results` row, from `types.ts`. -/
structure TestResult where
  id : String
  created_at : String
  topic : String
  score : Int
  total_questions : Int
  user_id : String
deriving DecidableEq, Repr

/-- One step of the `results.forEach` loop in `processSuggestions`
(`Dashboard.tsx` lines 84-90): a new topic key is created with zero
counters, then the row's score and total are added to its entry.  The
accumulator is an association list in order of first occurrence, and the
`!topicPerformance[r.topic]` test is modelled as an own-key lookup.
This is exact for the topic names the app writes (`appTopics`): they are
neither integer-like keys, which `for…in` would enumerate in numeric
order ahead of the others, nor names of `Object.prototype` properties
such as `constructor`, whose inherited truthiness would suppress entry
creation.  `suggestion_picks_min_accuracy` restricts its rows
accordingly. -/
def updatePerf (acc : List (String × Int × Int)) (r : TestResult) :
    List (String × Int × Int) :=
  if acc.any (fun p => p.1 == r.topic) then
    acc.map (fun p =>
      if p.1 == r.topic then (p.1, p.2.1 + r.score, p.2.2 + r.total_questions)
      else p)
  else acc ++ [(r.topic, r.score, r.total_questions)]

/-- The `topicPerformance` map built by `processSuggestions`. -/
def topicPerformance (results : List TestResult) : List (String × Int × Int) :=
  results.foldl updatePerf []

/-- The accuracy of one topic entry:
`(topicPerformance[topic].correct / topicPerformance[topic].total) * 100`
(`Dashboard.tsx` line 96), with the division taken exactly in `ℚ`. -/
def accuracyOf (p : String × Int × Int) : ℚ :=
  ((p.2.1 : ℚ) / (p.2.2 : ℚ)) * 100

/-- One step of the `for (const topic in topicPerformance)` loop
(`Dashboard.tsx` lines 95-101): the candidate is replaced exactly when
the entry's accuracy is strictly below the current lowest. -/
def suggestionStep (st : Option String × ℚ) (p : String × Int × Int) :
    Option String × ℚ :=
  if accuracyOf p < st.2 then (some p.1, accuracyOf p) else st

/-- Lowercases a string and replaces each maximal run of whitespace by a
single dash: `worstTopic.toLowerCase().replace(/\s+/g, '-')`. -/
def slugAux : Bool → List Char → List Char
  | _, [] => []
  | prevWs, c :: rest =>
      if c.isWhitespace then
        (if prevWs then [] else ['-']) ++ slugAux true rest
      else c :: slugAux false rest

/-- The topic key built in `processSuggestions` (`Dashboard.tsx` line 104). -/
def slugify (s : String) : String :=
  String.mk (slugAux false (s.toList.map Char.toLower))

/-- The `processSuggestions` function of `Dashboard.tsx` (lines 77-106),
returning the `{name, key}` pair passed to `setSuggestedTopic`, or `none`
when no call is made (the loop never finds an accuracy below the initial
bound 101, or `worstTopic` is the falsy empty string).  The `for…in`
loop is modelled as a fold over the accumulator in insertion order,
which matches the JavaScript enumeration order for the non-integer-like
own keys produced from `appTopics` rows (see `updatePerf`). -/
def processSuggestions (results : List TestResult) : Option (String × String) :=
  if results.length = 0 then some ("Let\x27s get started!", "")
  else
    match ((topicPerformance results).foldl suggestionStep
        (none, (101 : ℚ))).1 with
    | some worst => if worst = "" then none else some (worst, slugify worst)
    | none => none

/-- Aggregate score of a topic over a result list: the sum of `score`
over the rows with that topic. -/
def aggScore (results : List TestResult) (t : String) : Int :=
  ((results.filter (fun r => r.topic == t)).map TestResult.score).sum

/-- Aggregate question count of a topic over a result list: the sum of
`total_questions` over the rows with that topic. -/
def aggTotal (results : List TestResult) (t : String) : Int :=
  ((results.filter (fun r => r.topic == t)).map TestResult.total_questions).sum

/-- Formalization of the specification wording for the completion score:
the number of indices `i` where `answers[i]` equals
`questions[i].correctAnswer`, a null answer never matching. -/
def specCorrectCount (questions : List Question) (answers : List (Option String)) : Nat :=
  (List.range questions.length).countP (fun i =>
    match answers[i]?, questions[i]? with
    | some (some a), some q => a == q.correctAnswer
    | _, _ => false)

/-- Structural pairing of questions with answers; the common recursion
target relating the three score computations. -/
def pairScore : List Question → List (Option String) → Nat
  | _, [] => 0
  | [], _ :: _ => 0
  | q :: qs, a :: rest =>
      (if strictEq a q.correctAnswer then 1 else 0) + pairScore qs rest

lemma pairScore_nil_right (qs : List Question) : pairScore qs [] = 0 := by
  cases qs <;> rfl

lemma pairScore_nil_left (ans : List (Option String)) : pairScore [] ans = 0 := by
  cases ans <;> rfl

lemma scoreAux_eq_pairScore (ans : List (Option String)) :
    ∀ (qs : List Question) (n : Nat), scoreAux qs ans n = pairScore (qs.drop n) ans := by
  induction ans with
  | nil => intro qs n; simp [scoreAux, pairScore_nil_right]
  | cons a rest ih =>
      intro qs n
      have hdrop : (qs.drop n).drop 1 = qs.drop (n + 1) := List.drop_drop 1 n qs
      have hget : (qs.drop n)[0]? = qs[n]? := by
        exact List.getElem?_drop qs n 0
      cases h : qs.drop n with
      | nil =>
          rw [h] at hget hdrop
          simp only [List.getElem?_nil] at hget
          simp [scoreAux, ← hget, ih, ← hdrop, pairScore_nil_left]
      | cons q tl =>
          rw [h] at hget hdrop
          simp only [List.getElem?_cons_zero] at hget
          simp only [List.drop_one, List.tail_cons] at hdrop
          simp [scoreAux, ← hget, ih, ← hdrop, pairScore]

lemma computeScore_eq_pairScore (qs : List Question) (ans : List (Option String)) :
    computeScore qs ans = pairScore qs ans := by
  unfold computeScore
  rw [scoreAux_eq_pairScore]
  simp

lemma specCorrectCount_eq_pairScore :
    ∀ (qs : List Question) (ans : List (Option String)),
      ans.length = qs.length → specCorrectCount qs ans = pairScore qs ans := by
  intro qs
  induction qs with
  | nil =>
      intro ans h
      have : ans = [] := List.length_eq_zero.mp h
      subst this
      rfl
  | cons q qs ih =>
      intro ans h
      cases ans with
      | nil => simp at h
      | cons a rest =>
          simp only [List.length_cons, Nat.succ.injEq] at h
          unfold specCorrectCount
          simp only [List.length_cons]
          rw [List.range_succ_eq_map, List.countP_cons, List.countP_map]
          have hrec :
              List.countP
                  ((fun i =>
                    match (a :: rest)[i]?, ((q :: qs))[i]? with
                    | some (some x), some p => x == p.correctAnswer
                    | _, _ => false) ∘ Nat.succ) (List.range qs.length) =
                specCorrectCount qs rest := by
            unfold specCorrectCount
            congr 1
            funext i
            simp [Function.comp]
          rw [hrec, ih rest h, pairScore]
          cases a <;> simp [strictEq, Nat.add_comm]

lemma pairScore_replicate_none :
    ∀ (qs : List Question) (m : Nat), pairScore qs (List.replicate m none) = 0 := by
  intro qs
  induction qs with
  | nil => intro m; exact pairScore_nil_left _
  | cons q qs ih =>
      intro m
      cases m with
      | zero => simp [pairScore_nil_right]
      | succ k =>
          simp only [List.replicate, pairScore, strictEq]
          simpa using ih k

/-- C1: at completion the computed `correctCount` equals the number of
indices `i` where `answers[i]` equals `questions[i].correctAnswer`, and an
unanswered (null) position never counts as correct — in particular an
all-null answer sheet scores 0 for every question list, including one
whose `correctAnswer` is the empty string. -/
theorem correctCount_matches_spec (questions : List Question)
    (answers : List (Option String)) (h : answers.length = questions.length) :
    computeScore questions answers = specCorrectCount questions answers ∧
    computeScore questions (List.replicate questions.length none) = 0 := by
  constructor
  · rw [computeScore_eq_pairScore, specCorrectCount_eq_pairScore _ _ h]
  · rw [computeScore_eq_pairScore, pairScore_replicate_none]

/-- Witness for C1 at a concrete session: two questions, the second with
an empty `correctAnswer` and no submitted answer. -/
theorem correctCount_matches_spec_witness :
    ([some "A", none] : List (Option String)).length =
        ([⟨"q", ["A", "B"], "A", "e"⟩, ⟨"r", ["A", "B"], "", "e"⟩] :
          List Question).length ∧
      (computeScore [⟨"q", ["A", "B"], "A", "e"⟩, ⟨"r", ["A", "B"], "", "e"⟩]
            [some "A", none] =
          specCorrectCount [⟨"q", ["A", "B"], "A", "e"⟩, ⟨"r", ["A", "B"], "", "e"⟩]
            [some "A", none] ∧
        computeScore [⟨"q", ["A", "B"], "A", "e"⟩, ⟨"r", ["A", "B"], "", "e"⟩]
            (List.replicate
              ([⟨"q", ["A", "B"], "A", "e"⟩, ⟨"r", ["A", "B"], "", "e"⟩] :
                List Question).length none) = 0) :=
  ⟨by decide, correctCount_matches_spec _ _ (by decide)⟩

lemma handleCompletion_already (env : Env) (s : CompState)
    (h : s.testState = .completed) : handleCompletion env s = (s, noEffects) := by
  unfold handleCompletion
  rw [if_pos h]

lemma handleCompletion_fields (env : Env) (s : CompState) :
    (handleCompletion env s).1.testState = .completed ∧
    (handleCompletion env s).1.questions = s.questions ∧
    (handleCompletion env s).1.answers = s.answers ∧
    (handleCompletion env s).1.currentQuestionIndex = s.currentQuestionIndex := by
  unfold handleCompletion
  refine ⟨?_, ?_, ?_, ?_⟩ <;> (repeat' split) <;> try simp_all
  all_goals (by_cases hsc : 0 < computeScore s.questions s.answers <;> simp_all)

/-- C2: `complete()` is idempotent — once the first call has run, a second
call returns the state unchanged (same `correctCount` inputs) and issues
no further insert and no further score-increment call, whatever backend
outcomes either call would see. -/
theorem complete_idempotent (env env2 : Env) (s : CompState) :
    handleCompletion env2 (handleCompletion env s).1 =
      ((handleCompletion env s).1, noEffects) :=
  handleCompletion_already env2 _ (handleCompletion_fields env s).1

/-- Concrete completed-state session used for C3: one question whose
answer was never submitted before the timer expired. -/
def answeredDoneState : CompState :=
  { testState := .completed, questions := [⟨"q", ["A", "B"], "A", "e"⟩],
    currentQuestionIndex := 0, answers := [none], showExplanation := false,
    timeLeft := 0, saveError := none, profileScore := none }

/-- C3 counterexample: `handleAnswer` contains no state check — invoked on
a `Completed` state it overwrites the recorded answer and raises the
explanation flag, so submitting an answer is not a state-guarded no-op. -/
theorem submitAnswer_not_state_guarded :
    handleAnswer answeredDoneState "A" ≠ answeredDoneState := by decide

/-- C3 amended: the no-op holds at the dispatch level, not by a state
check inside the handler: the option buttons are rendered only in the
in-progress view, so an answer click delivered in any other state leaves
the session unchanged and issues no backend call. -/
theorem submitAnswer_noop_outside_inProgress (env : Env) (s : CompState)
    (o : String) (h : s.testState ≠ .inProgress) :
    step env (.clickOption o) s = (s, noEffects) := by
  cases hq : s.questions[s.currentQuestionIndex]? with
  | none => simp [step, hq]
  | some q => simp [step, hq, h]

/-- Witness for the amended C3 at a concrete completed session. -/
theorem submitAnswer_noop_outside_inProgress_witness :
    step ⟨none, none, none, none⟩ (.clickOption "A") answeredDoneState =
      (answeredDoneState, noEffects) :=
  submitAnswer_noop_outside_inProgress _ _ _ (by decide)

lemma viewScoreAux_eq (ans : List (Option String)) :
    ∀ (qs : List Question) (n : Nat), ans.length ≤ (qs.drop n).length →
      viewScoreAux qs ans n = some (pairScore (qs.drop n) ans) := by
  induction ans with
  | nil => intro qs n _; simp [viewScoreAux, pairScore_nil_right]
  | cons a rest ih =>
      intro qs n hlen
      have hdrop : (qs.drop n).drop 1 = qs.drop (n + 1) := List.drop_drop 1 n qs
      have hget : (qs.drop n)[0]? = qs[n]? := by
        exact List.getElem?_drop qs n 0
      cases h : qs.drop n with
      | nil => rw [h] at hlen; simp at hlen
      | cons q tl =>
          rw [h] at hget hdrop hlen
          simp only [List.getElem?_cons_zero] at hget
          simp only [List.drop_one, List.tail_cons] at hdrop
          simp only [List.length_cons, Nat.succ_le_succ_iff] at hlen
          have := ih qs (n + 1) (by rw [← hdrop]; exact hlen)
          simp [viewScoreAux, ← hget, this, ← hdrop, pairScore]

lemma viewScore_eq_computeScore (qs : List Question) (ans : List (Option String))
    (h : ans.length = qs.length) : viewScore qs ans = some (computeScore qs ans) := by
  unfold viewScore
  rw [viewScoreAux_eq ans qs 0 (by simp [h]), computeScore_eq_pairScore]
  simp

/-- Environment in which the result-record insert fails. -/
def faultEnv : Env := ⟨some "user-1", some "Quantitative Aptitude", some "boom", none⟩

/-- Concrete in-progress session about to complete, used for C4. -/
def faultSession : CompState :=
  { testState := .inProgress, questions := [⟨"q", ["A", "B"], "A", "e"⟩],
    currentQuestionIndex := 0, answers := [some "A"], showExplanation := true,
    timeLeft := 7, saveError := none, profileScore := some 0 }

/-- C4 counterexample: when the insert fails, the completed view keeps the
score line but replaces the pointsEarned line by the save-failed panel, so
the UI does not show `pointsEarned` as the claim states. -/
theorem saveFailed_hides_pointsEarned :
    (renderCompleted (handleCompletion faultEnv faultSession).1).errorShown =
        some "boom" ∧
      (renderCompleted (handleCompletion faultEnv faultSession).1).scoreShown =
        some 1 ∧
      (renderCompleted (handleCompletion faultEnv faultSession).1).xpShown = none := by
  decide

/-- C4 amended: if the result-record insert fails, the session still
transitions to `Completed`, the computed `correctCount` is still shown, no
score-increment call is attempted, the profile score is untouched, and the
error is caught into `saveError` and surfaced as the save-failed panel —
which replaces the pointsEarned line rather than showing it. -/
theorem saveFailed_best_effort (env : Env) (s : CompState)
    (uid topic e : String)
    (huser : env.user = some uid) (htopic : env.selectedTopic = some topic)
    (hins : env.insertError = some e) (hst : s.testState ≠ .completed)
    (hlen : s.answers.length = s.questions.length) :
    (handleCompletion env s).1.testState = .completed ∧
    (handleCompletion env s).1.saveError = some e ∧
    (handleCompletion env s).2.rpcs = [] ∧
    (handleCompletion env s).1.profileScore = s.profileScore ∧
    renderCompleted (handleCompletion env s).1 =
      { scoreShown := some (computeScore s.questions s.answers),
        totalShown := s.questions.length,
        xpShown := none,
        errorShown := some e } := by
  have hview := viewScore_eq_computeScore s.questions s.answers hlen
  unfold handleCompletion
  rw [if_neg hst]
  simp only [htopic, huser, hins]
  simp [renderCompleted, hview]

/-- Witness for the amended C4 at the concrete faulting session. -/
theorem saveFailed_best_effort_witness :
    (handleCompletion faultEnv faultSession).1.testState = .completed ∧
    (handleCompletion faultEnv faultSession).1.saveError = some "boom" ∧
    (handleCompletion faultEnv faultSession).2.rpcs = [] ∧
    (handleCompletion faultEnv faultSession).1.profileScore =
      faultSession.profileScore ∧
    renderCompleted (handleCompletion faultEnv faultSession).1 =
      { scoreShown :=
          some (computeScore faultSession.questions faultSession.answers),
        totalShown := faultSession.questions.length,
        xpShown := none,
        errorShown := some "boom" } :=
  saveFailed_best_effort faultEnv faultSession "user-1" "Quantitative Aptitude"
    "boom" rfl rfl rfl (by decide) (by decide)

/-- C5: the score-increment RPC is issued exactly when an insert was
issued and succeeded and the computed score is positive, and its value is
then `correctCount * 100`. -/
theorem rpc_iff_insert_ok_and_positive (env : Env) (s : CompState) :
    (handleCompletion env s).2.rpcs =
      (if (handleCompletion env s).2.inserts ≠ [] ∧ env.insertError = none ∧
           0 < computeScore s.questions s.answers
       then [computeScore s.questions s.answers * 100] else []) := by
  unfold handleCompletion
  repeat' split
  all_goals try simp_all [noEffects]
  all_goals (by_cases hsc : 0 < computeScore s.questions s.answers <;>
    simp_all [noEffects])

lemma startTestFetched_inv (s : CompState) (qs : List Question) :
    Inv (startTestFetched s qs) := by
  unfold startTestFetched Inv
  split <;> simp_all

lemma inv_step (env : Env) (e : Event) (s : CompState) (h : Inv s) :
    Inv (step env e s).1 := by
  obtain ⟨h1, h2, h3⟩ := h
  cases e with
  | fetched qs => exact startTestFetched_inv s qs
  | clickOption o =>
      cases hq : s.questions[s.currentQuestionIndex]? with
      | none => simp only [step, hq]; exact ⟨h1, h2, h3⟩
      | some q =>
          by_cases hc : s.testState = .inProgress ∧ 0 < s.questions.length ∧
              s.showExplanation = false ∧ o ∈ q.options
          · have hlen : s.answers.length = s.questions.length := h1 (Or.inl hc.1)
            have hidx : s.currentQuestionIndex < s.questions.length := h2 hc.1
            have hset : (jsArraySet s.answers s.currentQuestionIndex
                (some o)).length = s.questions.length := by
              unfold jsArraySet
              rw [if_pos (by omega)]
              simp [hlen]
            simp only [step, hq, if_pos hc]
            refine ⟨fun _ => ?_, fun _ => ?_, fun hcomp => ?_⟩
            · simpa [handleAnswer] using hset
            · simpa [handleAnswer] using hidx
            · exact absurd (hc.1.symm.trans hcomp) (by decide)
          · simp only [step, hq, if_neg hc]; exact ⟨h1, h2, h3⟩
  | clickNext =>
      by_cases hc : s.testState = .inProgress ∧ 0 < s.questions.length ∧
          s.showExplanation = true
      · simp only [step, if_pos hc]
        unfold goToNextQuestion
        by_cases hlt : s.currentQuestionIndex < s.questions.length - 1
        · rw [if_pos hlt]
          refine ⟨fun _ => ?_, fun _ => ?_, fun hcomp => ?_⟩
          · exact h1 (Or.inl hc.1)
          · show s.currentQuestionIndex + 1 < s.questions.length
            omega
          · exact absurd (hc.1.symm.trans hcomp) (by decide)
        · rw [if_neg hlt]
          have hf := handleCompletion_fields env { s with showExplanation := false }
          refine ⟨fun _ => ?_, fun hip => ?_, fun _ => ?_⟩
          · rw [hf.2.2.1, hf.2.1]; exact h1 (Or.inl hc.1)
          · exact absurd (hf.1.symm.trans hip) (by decide)
          · rw [hf.2.2.2, hf.2.1]; exact Nat.le_of_lt (h2 hc.1)
      · simp only [step, if_neg hc]; exact ⟨h1, h2, h3⟩
  | clickReset =>
      by_cases hc : s.testState = .completed ∨
          (s.testState = .inProgress ∧ 0 < s.questions.length)
      · simp only [step, if_pos hc]
        unfold resetTest
        exact ⟨fun hx => by simp at hx, fun hx => by simp at hx,
               fun hx => by simp at hx⟩
      · simp only [step, if_neg hc]; exact ⟨h1, h2, h3⟩
  | timerTick =>
      by_cases hc : s.testState = .inProgress ∧ 0 < s.timeLeft
      · simp only [step, tick, if_pos hc]; exact ⟨h1, h2, h3⟩
      · by_cases hc2 : s.timeLeft = 0 ∧ s.testState = .inProgress
        · simp only [step, tick, if_neg hc, if_pos hc2]
          have hf := handleCompletion_fields env s
          refine ⟨fun _ => ?_, fun hip => ?_, fun _ => ?_⟩
          · rw [hf.2.2.1, hf.2.1]; exact h1 (Or.inl hc2.2)
          · exact absurd (hf.1.symm.trans hip) (by decide)
          · rw [hf.2.2.2, hf.2.1]; exact Nat.le_of_lt (h2 hc2.2)
        · simp only [step, tick, if_neg hc, if_neg hc2]; exact ⟨h1, h2, h3⟩

/-- C6: `answers.length == questions.length` holds from the moment the
state becomes `InProgress` (and stays through `Completed`, until `reset`
leaves those states): the invariant holds initially, is established by
`startTest` for any fetch result, and is preserved by every event. -/
theorem answers_length_invariant :
    (∀ p : Option Int, Inv (initialState p)) ∧
    (∀ (s : CompState) (qs : List Question), Inv (startTestFetched s qs)) ∧
    (∀ (env : Env) (e : Event) (s : CompState), Inv s → Inv (step env e s).1) :=
  ⟨fun p => by simp [Inv, initialState], startTestFetched_inv, inv_step⟩

/-- Witness for C6: the invariant propagates through a concrete step. -/
theorem answers_length_invariant_witness :
    Inv (step ⟨none, none, none, none⟩ .timerTick (initialState none)).1 :=
  answers_length_invariant.2.2 ⟨none, none, none, none⟩ .timerTick
    (initialState none) (by decide)

/-- C7: within a session (all events except re-initialization) the cursor
never decreases and stays within `[0, questions.length]`, and
`goToNextQuestion` increments it exactly while `currentIndex < N - 1`,
otherwise triggering completion with the cursor unchanged. -/
theorem cursor_monotone_bounded (env : Env) (e : Event) (s : CompState)
    (hinv : Inv s) (hstart : e.isStart = false) :
    s.currentQuestionIndex ≤ (step env e s).1.currentQuestionIndex ∧
    ((step env e s).1.testState = .inProgress ∨
        (step env e s).1.testState = .completed →
      (step env e s).1.currentQuestionIndex ≤ (step env e s).1.questions.length) ∧
    (s.testState = .inProgress →
      if s.currentQuestionIndex < s.questions.length - 1 then
        (goToNextQuestion env s).1.currentQuestionIndex =
            s.currentQuestionIndex + 1 ∧
          (goToNextQuestion env s).1.testState = .inProgress
      else
        (goToNextQuestion env s).1.testState = .completed ∧
          (goToNextQuestion env s).1.currentQuestionIndex =
            s.currentQuestionIndex) := by
  obtain ⟨g1, g2, g3⟩ := inv_step env e s hinv
  refine ⟨?_, ?_, ?_⟩
  · cases e with
    | fetched qs => simp [Event.isStart] at hstart
    | clickOption o =>
        cases hq : s.questions[s.currentQuestionIndex]? with
        | none => simp [step, hq]
        | some q =>
            by_cases hc : s.testState = .inProgress ∧ 0 < s.questions.length ∧
                s.showExplanation = false ∧ o ∈ q.options
            · simp [step, hq, if_pos hc, handleAnswer]
            · simp [step, hq, if_neg hc]
    | clickNext =>
        by_cases hc : s.testState = .inProgress ∧ 0 < s.questions.length ∧
            s.showExplanation = true
        · simp only [step, if_pos hc]
          unfold goToNextQuestion
          by_cases hlt : s.currentQuestionIndex < s.questions.length - 1
          · rw [if_pos hlt]; exact Nat.le_succ _
          · rw [if_neg hlt]
            rw [(handleCompletion_fields env
              { s with showExplanation := false }).2.2.2]
        · simp only [step, if_neg hc]; exact Nat.le_refl _
    | clickReset =>
        by_cases hc : s.testState = .completed ∨
            (s.testState = .inProgress ∧ 0 < s.questions.length)
        · simp [step, if_pos hc, resetTest]
        · simp [step, if_neg hc]
    | timerTick =>
        by_cases hc : s.testState = .inProgress ∧ 0 < s.timeLeft
        · simp only [step, tick, if_pos hc]; exact Nat.le_refl _
        · by_cases hc2 : s.timeLeft = 0 ∧ s.testState = .inProgress
          · simp only [step, tick, if_neg hc, if_pos hc2]
            rw [(handleCompletion_fields env s).2.2.2]
          · simp only [step, tick, if_neg hc, if_neg hc2]
            exact Nat.le_refl _
  · intro hx
    cases hx with
    | inl hip => exact Nat.le_of_lt (g2 hip)
    | inr hcomp => exact g3 hcomp
  · intro hip
    by_cases hlt : s.currentQuestionIndex < s.questions.length - 1
    · rw [if_pos hlt]
      unfold goToNextQuestion
      rw [if_pos hlt]
      exact ⟨rfl, hip⟩
    · rw [if_neg hlt]
      unfold goToNextQuestion
      rw [if_neg hlt]
      have hf := handleCompletion_fields env { s with showExplanation := false }
      exact ⟨hf.1, hf.2.2.2⟩

/-- Witness for C7: cursor behavior on a concrete timer tick. -/
theorem cursor_monotone_bounded_witness :
    (initialState none).currentQuestionIndex ≤
      (step ⟨none, none, none, none⟩ .timerTick (initialState none)).1.currentQuestionIndex :=
  (cursor_monotone_bounded ⟨none, none, none, none⟩ .timerTick
    (initialState none) (by decide) (by decide)).1

/-- C8: with no user identity at completion, the controller skips the
insert and the RPC entirely, raises no error, and the local score is still
computed and displayed (score line and XP line both present). -/
theorem anonymous_completion_skips_persistence (env : Env) (s : CompState)
    (huser : env.user = none) (hst : s.testState ≠ .completed)
    (hlen : s.answers.length = s.questions.length) :
    handleCompletion env s =
      ({ s with testState := .completed, saveError := none }, noEffects) ∧
    renderCompleted (handleCompletion env s).1 =
      { scoreShown := some (computeScore s.questions s.answers),
        totalShown := s.questions.length,
        xpShown := some (computeScore s.questions s.answers * 100),
        errorShown := none } := by
  have hview := viewScore_eq_computeScore s.questions s.answers hlen
  have heq : handleCompletion env s =
      ({ s with testState := .completed, saveError := none }, noEffects) := by
    unfold handleCompletion
    rw [if_neg hst]
    cases htop : env.selectedTopic <;> simp [huser, htop]
  refine ⟨heq, ?_⟩
  rw [heq]
  simp [renderCompleted, hview]

/-- Environment with a topic but no signed-in user. -/
def anonEnv : Env := ⟨none, some "Verbal Ability", none, none⟩

/-- Concrete anonymous in-progress session used for C8. -/
def anonSession : CompState :=
  { testState := .inProgress, questions := [⟨"q", ["A", "B"], "B", "e"⟩],
    currentQuestionIndex := 0, answers := [some "B"], showExplanation := true,
    timeLeft := 3, saveError := none, profileScore := none }

/-- Witness for C8 on the concrete anonymous session. -/
theorem anonymous_completion_skips_persistence_witness :
    handleCompletion anonEnv anonSession =
      ({ anonSession with testState := .completed, saveError := none },
        noEffects) ∧
    renderCompleted (handleCompletion anonEnv anonSession).1 =
      { scoreShown :=
          some (computeScore anonSession.questions anonSession.answers),
        totalShown := anonSession.questions.length,
        xpShown :=
          some (computeScore anonSession.questions anonSession.answers * 100),
        errorShown := none } :=
  anonymous_completion_skips_persistence anonEnv anonSession rfl (by decide)
    (by decide)

/-- C9: the displayed leaderboard rank equals 1 plus the number of
profiles whose score is strictly greater; equal scores give equal ranks
and the rank is never 0 (competition ranking). -/
theorem userRank_competition (table : List ProfileRow) (p1 p2 : ProfileRow)
    (heq : p1.score = p2.score) :
    computeUserRank table p1 =
        1 + (table.filter (fun q => p1.score < q.score)).length ∧
    computeUserRank table p1 = computeUserRank table p2 ∧
    computeUserRank table p1 ≠ 0 := by
  refine ⟨?_, ?_, ?_⟩
  · simp [computeUserRank, countProfilesAbove, Nat.add_comm]
  · simp [computeUserRank, countProfilesAbove, heq]
  · simp [computeUserRank]

/-- Concrete profiles table used for the C9 witness: two distinct users
share the score 300. -/
def lbTable : List ProfileRow :=
  [⟨"a", some "alice", none, 500⟩, ⟨"b", none, none, 300⟩,
   ⟨"c", none, none, 300⟩]

/-- Witness for C9: both 300-score users rank 2 behind the 500-score
leader. -/
theorem userRank_competition_witness :
    computeUserRank lbTable ⟨"b", none, none, 300⟩ =
        1 + (lbTable.filter (fun q => (300 : Int) < q.score)).length ∧
    computeUserRank lbTable ⟨"b", none, none, 300⟩ =
        computeUserRank lbTable ⟨"c", none, none, 300⟩ ∧
    computeUserRank lbTable ⟨"b", none, none, 300⟩ ≠ 0 :=
  userRank_competition lbTable ⟨"b", none, none, 300⟩ ⟨"c", none, none, 300⟩
    rfl

/-- Specification-side recursion for the suggestion loop: given the
current lowest-accuracy bound, the entry the loop will end on is the
first entry attaining the minimum accuracy strictly below the bound. -/
def firstStrictMin (b : ℚ) : List (String × Int × Int) → Option (String × ℚ)
  | [] => none
  | p :: rest =>
      if accuracyOf p < b then
        match firstStrictMin (accuracyOf p) rest with
        | some r => some r
        | none => some (p.1, accuracyOf p)
      else firstStrictMin b rest

lemma foldl_suggestionStep (perf : List (String × Int × Int)) :
    ∀ (o : Option String) (b : ℚ),
      perf.foldl suggestionStep (o, b) =
        match firstStrictMin b perf with
        | some r => (some r.1, r.2)
        | none => (o, b) := by
  induction perf with
  | nil => intro o b; rfl
  | cons p rest ih =>
      intro o b
      by_cases hp : accuracyOf p < b
      · have hstep : suggestionStep (o, b) p = (some p.1, accuracyOf p) := by
          simp [suggestionStep, hp]
        have hout : firstStrictMin b (p :: rest) =
            match firstStrictMin (accuracyOf p) rest with
            | some r => some r
            | none => some (p.1, accuracyOf p) := by
          simp only [firstStrictMin]
          rw [if_pos hp]
        rw [List.foldl_cons, hstep, ih, hout]
        cases hfs : firstStrictMin (accuracyOf p) rest <;> rfl
      · have hstep : suggestionStep (o, b) p = (o, b) := by
          simp [suggestionStep, hp]
        have hout : firstStrictMin b (p :: rest) = firstStrictMin b rest := by
          simp only [firstStrictMin]
          rw [if_neg hp]
        rw [List.foldl_cons, hstep, ih, hout]

lemma firstStrictMin_none (perf : List (String × Int × Int)) :
    ∀ b : ℚ, firstStrictMin b perf = none → ∀ p ∈ perf, b ≤ accuracyOf p := by
  induction perf with
  | nil => intro b _ p hp; cases hp
  | cons q rest ih =>
      intro b hnone p hp
      unfold firstStrictMin at hnone
      by_cases hq : accuracyOf q < b
      · rw [if_pos hq] at hnone
        cases hfs : firstStrictMin (accuracyOf q) rest <;> simp [hfs] at hnone
      · rw [if_neg hq] at hnone
        cases hp with
        | head => exact le_of_not_lt hq
        | tail _ hmem => exact ih b hnone p hmem

lemma firstStrictMin_some (perf : List (String × Int × Int)) :
    ∀ (b : ℚ) (t : String) (m : ℚ), firstStrictMin b perf = some (t, m) →
      m < b ∧ (∀ p ∈ perf, m ≤ accuracyOf p) ∧
      ∃ i, ∃ hi : i < perf.length,
        (perf.get ⟨i, hi⟩).1 = t ∧ accuracyOf (perf.get ⟨i, hi⟩) = m ∧
        ∀ j (hj : j < perf.length), j < i →
          m < accuracyOf (perf.get ⟨j, hj⟩) := by
  induction perf with
  | nil => intro b t m h; cases h
  | cons q rest ih =>
      intro b t m h
      unfold firstStrictMin at h
      by_cases hq : accuracyOf q < b
      · rw [if_pos hq] at h
        cases hfs : firstStrictMin (accuracyOf q) rest with
        | some r =>
            rw [hfs] at h
            have hr : r = (t, m) := by simpa using h
            subst hr
            obtain ⟨hlt, hall, i, hi, h1, h2, h3⟩ := ih (accuracyOf q) t m hfs
            refine ⟨lt_trans hlt hq, ?_, i + 1, Nat.succ_lt_succ hi, ?_, ?_, ?_⟩
            · intro p hp
              cases hp with
              | head => exact le_of_lt hlt
              | tail _ hmem => exact hall p hmem
            · simpa using h1
            · simpa using h2
            · intro j hj hji
              cases j with
              | zero => simpa using hlt
              | succ j' =>
                  have hj' : j' < rest.length := by
                    simpa using Nat.lt_of_succ_lt_succ hj
                  have := h3 j' hj' (Nat.lt_of_succ_lt_succ hji)
                  simpa using this
        | none =>
            rw [hfs] at h
            have hpair : q.1 = t ∧ accuracyOf q = m := by
              have := Option.some.inj h
              exact ⟨congrArg Prod.fst this, congrArg Prod.snd this⟩
            obtain ⟨ht, hm⟩ := hpair
            subst ht; subst hm
            refine ⟨hq, ?_, 0, Nat.succ_pos _, rfl, rfl, ?_⟩
            · intro p hp
              cases hp with
              | head => exact le_refl _
              | tail _ hmem => exact firstStrictMin_none rest _ hfs p hmem
            · intro j hj hj0
              exact absurd hj0 (Nat.not_lt_zero j)
      · rw [if_neg hq] at h
        obtain ⟨hlt, hall, i, hi, h1, h2, h3⟩ := ih b t m h
        have hqm : m < accuracyOf q := lt_of_lt_of_le hlt (le_of_not_lt hq)
        refine ⟨hlt, ?_, i + 1, Nat.succ_lt_succ hi, ?_, ?_, ?_⟩
        · intro p hp
          cases hp with
          | head => exact le_of_lt hqm
          | tail _ hmem => exact hall p hmem
        · simpa using h1
        · simpa using h2
        · intro j hj hji
          cases j with
          | zero => simpa using hqm
          | succ j' =>
              have hj' : j' < rest.length := by
                simpa using Nat.lt_of_succ_lt_succ hj
              have := h3 j' hj' (Nat.lt_of_succ_lt_succ hji)
              simpa using this

lemma firstStrictMin_isSome (perf : List (String × Int × Int)) :
    ∀ (b : ℚ) (p : String × Int × Int), p ∈ perf → accuracyOf p < b →
      ∃ r, firstStrictMin b perf = some r := by
  induction perf with
  | nil => intro b p hp; cases hp
  | cons q rest ih =>
      intro b p hp hlt
      unfold firstStrictMin
      by_cases hq : accuracyOf q < b
      · rw [if_pos hq]
        cases hfs : firstStrictMin (accuracyOf q) rest <;> simp [hfs]
      · rw [if_neg hq]
        cases hp with
        | head => exact absurd hlt hq
        | tail _ hmem => exact ih b p hmem hlt

/-- The five topic names the app can write into `test_results`: the
insert at `Practice.tsx:77` uses `selectedTopic.name`, drawn from the
fixed `topics` table at `Practice.tsx:21-27`. -/
def appTopics : List String :=
  ["Quantitative Aptitude", "Logical Reasoning", "Verbal Ability",
   "General Knowledge", "Data Interpretation"]

/-- Rows as the app itself writes them: a positive question count, a
score between 0 and the question count, and a topic drawn from the fixed
topic table.  The topic restriction also keeps the association-list
object model exact: for these names, which are neither integer-like nor
properties of `Object.prototype`, a JavaScript object behaves as an
own-key map enumerated by `for…in` in insertion order. -/
def RowOK (r : TestResult) : Prop :=
  0 < r.total_questions ∧ 0 ≤ r.score ∧ r.score ≤ r.total_questions ∧
  r.topic ∈ appTopics

instance (r : TestResult) : Decidable (RowOK r) := by
  unfold RowOK; infer_instance

/-- Invariant of one accumulator entry relative to the rows already
folded: the counters are the topic's aggregate sums, in bounds, and the
key names a topic of one of the rows. -/
def EntryOK (pre : List TestResult) (p : String × Int × Int) : Prop :=
  0 < p.2.2 ∧ 0 ≤ p.2.1 ∧ p.2.1 ≤ p.2.2 ∧
  (∃ r ∈ pre, r.topic = p.1) ∧
  p.2.1 = aggScore pre p.1 ∧ p.2.2 = aggTotal pre p.1

/-- Invariant of the whole accumulator: every entry is correct and every
row already folded has an entry. -/
def PerfInv (pre : List TestResult) (acc : List (String × Int × Int)) : Prop :=
  (∀ p ∈ acc, EntryOK pre p) ∧
  (∀ r ∈ pre, acc.any (fun p => p.1 == r.topic) = true)

lemma aggScore_append (pre : List TestResult) (r : TestResult) (t : String) :
    aggScore (pre ++ [r]) t =
      aggScore pre t + (if r.topic == t then r.score else 0) := by
  unfold aggScore
  rw [List.filter_append]
  by_cases h : r.topic == t <;> simp [h, List.filter]

lemma aggTotal_append (pre : List TestResult) (r : TestResult) (t : String) :
    aggTotal (pre ++ [r]) t =
      aggTotal pre t + (if r.topic == t then r.total_questions else 0) := by
  unfold aggTotal
  rw [List.filter_append]
  by_cases h : r.topic == t <;> simp [h, List.filter]

lemma aggScore_of_not_mem (pre : List TestResult) (t : String)
    (h : ∀ r ∈ pre, r.topic ≠ t) : aggScore pre t = 0 := by
  unfold aggScore
  have : pre.filter (fun r => r.topic == t) = [] := by
    rw [List.filter_eq_nil_iff]
    intro r hr
    simpa using h r hr
  simp [this]

lemma aggTotal_of_not_mem (pre : List TestResult) (t : String)
    (h : ∀ r ∈ pre, r.topic ≠ t) : aggTotal pre t = 0 := by
  unfold aggTotal
  have : pre.filter (fun r => r.topic == t) = [] := by
    rw [List.filter_eq_nil_iff]
    intro r hr
    simpa using h r hr
  simp [this]

lemma perfInv_update (pre : List TestResult) (acc : List (String × Int × Int))
    (r : TestResult) (hinv : PerfInv pre acc) (hr : RowOK r) :
    PerfInv (pre ++ [r]) (updatePerf acc r) := by
  obtain ⟨hent, hcov⟩ := hinv
  obtain ⟨hpos, hnn, hle, _⟩ := hr
  unfold updatePerf
  by_cases hany : acc.any (fun p => p.1 == r.topic) = true
  · rw [if_pos hany]
    constructor
    · intro p hp
      obtain ⟨p0, hp0, hmap⟩ := List.mem_map.mp hp
      obtain ⟨e1, e2, e3, e4, e5, e6⟩ := hent p0 hp0
      by_cases hk : p0.1 == r.topic
      · rw [if_pos hk] at hmap
        subst hmap
        have ht : r.topic = p0.1 := (beq_iff_eq.mp hk).symm
        refine ⟨by dsimp only; omega, by dsimp only; omega, by dsimp only; omega, ?_, ?_, ?_⟩
        · exact ⟨r, List.mem_append_right _ (List.mem_singleton_self r), ht⟩
        · rw [aggScore_append, ← e5, if_pos (beq_iff_eq.mpr ht)]
        · rw [aggTotal_append, ← e6, if_pos (beq_iff_eq.mpr ht)]
      · rw [if_neg hk] at hmap
        subst hmap
        have ht : r.topic ≠ p0.1 := fun hEq =>
          hk (beq_iff_eq.mpr hEq.symm)
        obtain ⟨r0, hr0, hr0t⟩ := e4
        refine ⟨e1, e2, e3,
          ⟨r0, List.mem_append_left _ hr0, hr0t⟩, ?_, ?_⟩
        · rw [aggScore_append, ← e5,
            if_neg (fun hb => ht (beq_iff_eq.mp hb)), add_zero]
        · rw [aggTotal_append, ← e6,
            if_neg (fun hb => ht (beq_iff_eq.mp hb)), add_zero]
    · intro r' hr'
      rcases List.mem_append.mp hr' with hmem | hmem
      · obtain ⟨p0, hp0, hkey⟩ := List.any_eq_true.mp (hcov r' hmem)
        apply List.any_eq_true.mpr
        refine ⟨if p0.1 == r.topic then
            (p0.1, p0.2.1 + r.score, p0.2.2 + r.total_questions) else p0,
          List.mem_map_of_mem _ hp0, ?_⟩
        by_cases hk : p0.1 == r.topic <;> simp [hk] <;>
          simpa using hkey
      · obtain ⟨p0, hp0, hkey⟩ := List.any_eq_true.mp hany
        apply List.any_eq_true.mpr
        have hr'r : r' = r := by simpa using hmem
        subst hr'r
        have hmem2 := List.mem_map_of_mem (fun p : String × Int × Int =>
          if p.1 == r'.topic then
            (p.1, p.2.1 + r'.score, p.2.2 + r'.total_questions)
          else p) hp0
        simp only [hkey, if_true] at hmem2
        exact ⟨_, hmem2, hkey⟩
  · rw [if_neg hany]
    have hnotin : ∀ r' ∈ pre, r'.topic ≠ r.topic := by
      intro r' hmem hEqtop
      apply hany
      obtain ⟨p0, hp0, hkey⟩ := List.any_eq_true.mp (hcov r' hmem)
      apply List.any_eq_true.mpr
      refine ⟨p0, hp0, ?_⟩
      rw [← hEqtop]
      exact hkey
    constructor
    · intro p hp
      rcases List.mem_append.mp hp with hmem | hmem
      · obtain ⟨e1, e2, e3, e4, e5, e6⟩ := hent p hmem
        have hne : r.topic ≠ p.1 := by
          intro hEq
          apply hany
          apply List.any_eq_true.mpr
          exact ⟨p, hmem, beq_iff_eq.mpr hEq.symm⟩
        obtain ⟨r0, hr0, hr0t⟩ := e4
        refine ⟨e1, e2, e3,
          ⟨r0, List.mem_append_left _ hr0, hr0t⟩, ?_, ?_⟩
        · rw [aggScore_append, ← e5,
            if_neg (fun hb => hne (beq_iff_eq.mp hb)), add_zero]
        · rw [aggTotal_append, ← e6,
            if_neg (fun hb => hne (beq_iff_eq.mp hb)), add_zero]
      · have hpnew : p = (r.topic, r.score, r.total_questions) := by
          simpa using hmem
        subst hpnew
        refine ⟨hpos, hnn, hle,
          ⟨r, List.mem_append_right _ (List.mem_singleton_self r), rfl⟩, ?_, ?_⟩
        · rw [aggScore_append, aggScore_of_not_mem pre r.topic hnotin,
            if_pos (beq_iff_eq.mpr rfl), zero_add]
        · rw [aggTotal_append, aggTotal_of_not_mem pre r.topic hnotin,
            if_pos (beq_iff_eq.mpr rfl), zero_add]
    · intro r' hr'
      rcases List.mem_append.mp hr' with hmem | hmem
      · obtain ⟨p0, hp0, hkey⟩ := List.any_eq_true.mp (hcov r' hmem)
        exact List.any_eq_true.mpr ⟨p0, List.mem_append_left _ hp0, hkey⟩
      · have hr'r : r' = r := by simpa using hmem
        subst hr'r
        exact List.any_eq_true.mpr
          ⟨(r'.topic, r'.score, r'.total_questions),
            List.mem_append_right _ (List.mem_singleton_self _),
            beq_iff_eq.mpr rfl⟩

lemma perfInv_foldl :
    ∀ (rest pre : List TestResult) (acc : List (String × Int × Int)),
      PerfInv pre acc → (∀ r ∈ rest, RowOK r) →
      PerfInv (pre ++ rest) (rest.foldl updatePerf acc) := by
  intro rest
  induction rest with
  | nil => intro pre acc hinv _; simpa using hinv
  | cons r rest ih =>
      intro pre acc hinv hrows
      have h1 := perfInv_update pre acc r hinv (hrows r (List.mem_cons_self r rest))
      have h2 := ih (pre ++ [r]) (updatePerf acc r) h1
        (fun x hx => hrows x (List.mem_cons_of_mem r hx))
      simpa [List.append_assoc] using h2

lemma perfInv_topicPerformance (results : List TestResult)
    (hrows : ∀ r ∈ results, RowOK r) :
    PerfInv results (topicPerformance results) := by
  have h := perfInv_foldl results [] [] ⟨by simp, by simp⟩ hrows
  simpa [topicPerformance] using h

lemma accuracyOf_le_100 (p : String × Int × Int) (hpos : 0 < p.2.2)
    (hle : p.2.1 ≤ p.2.2) : accuracyOf p ≤ 100 := by
  unfold accuracyOf
  have hq : (0 : ℚ) < (p.2.2 : ℚ) := by exact_mod_cast hpos
  have h1 : ((p.2.1 : ℚ) / (p.2.2 : ℚ)) ≤ 1 := by
    rw [div_le_one hq]
    exact_mod_cast hle
  calc ((p.2.1 : ℚ) / (p.2.2 : ℚ)) * 100 ≤ 1 * 100 :=
        mul_le_mul_of_nonneg_right h1 (by norm_num)
    _ = 100 := by norm_num

/-- The property C10 states of the suggestion logic on non-empty input:
a topic is produced; it occurs in the results; its performance entry
carries the topic's aggregate sums; its aggregate accuracy is minimal
among all topics; and every earlier entry has strictly greater accuracy
(first topic wins ties). -/
def SuggestionCorrect (results : List TestResult) : Prop :=
  ∃ t, processSuggestions results = some (t, slugify t) ∧
    (∃ r ∈ results, r.topic = t) ∧
    ∃ i, ∃ hi : i < (topicPerformance results).length,
      ((topicPerformance results).get ⟨i, hi⟩).1 = t ∧
      ((topicPerformance results).get ⟨i, hi⟩).2.1 = aggScore results t ∧
      ((topicPerformance results).get ⟨i, hi⟩).2.2 = aggTotal results t ∧
      (∀ p ∈ topicPerformance results,
        accuracyOf ((topicPerformance results).get ⟨i, hi⟩) ≤ accuracyOf p) ∧
      ∀ j (hj : j < (topicPerformance results).length), j < i →
        accuracyOf ((topicPerformance results).get ⟨i, hi⟩) <
          accuracyOf ((topicPerformance results).get ⟨j, hj⟩)

/-- Concrete result row whose score exceeds its question count. -/
def badRow : TestResult := ⟨"row-1", "2026-01-01", "T", 2, 1, "user-9"⟩

/-- C10 counterexample: for the non-empty result list `[badRow]` the loop
never fires (the aggregate accuracy 200 is not below the initial bound
101), so no suggested topic is produced at all. -/
theorem suggestion_none_for_overfull_row :
    processSuggestions [badRow] = none := by
  norm_num [processSuggestions, topicPerformance, updatePerf, suggestionStep,
    accuracyOf, List.foldl, badRow]

/-- C10 amended: for every non-empty result list whose rows are shaped as
the app writes them (positive question count, score in range, topic one
of the five fixed topic names — the domain on which the object model of
`updatePerf` is exact), the suggestion logic produces a topic, and it is
the first topic of minimal aggregate accuracy. -/
theorem suggestion_picks_min_accuracy (results : List TestResult)
    (hne : results ≠ []) (hrows : ∀ r ∈ results, RowOK r) :
    SuggestionCorrect results := by
  obtain ⟨hent, hcov⟩ := perfInv_topicPerformance results hrows
  obtain ⟨r0, hr0⟩ : ∃ r, r ∈ results := by
    cases results with
    | nil => exact absurd rfl hne
    | cons a l => exact ⟨a, List.mem_cons_self a l⟩
  obtain ⟨p0, hp0, hkey0⟩ := List.any_eq_true.mp (hcov r0 hr0)
  have hp0ok := hent p0 hp0
  have hacc0 : accuracyOf p0 < 101 :=
    lt_of_le_of_lt (accuracyOf_le_100 p0 hp0ok.1 hp0ok.2.2.1) (by norm_num)
  obtain ⟨⟨t, m⟩, hfs⟩ :=
    firstStrictMin_isSome (topicPerformance results) 101 p0 hp0 hacc0
  obtain ⟨hmlt, hall, i, hi, hkey, haccm, hfirst⟩ :=
    firstStrictMin_some (topicPerformance results) 101 t m hfs
  have hgetmem : (topicPerformance results).get ⟨i, hi⟩ ∈
      topicPerformance results := List.get_mem _ _ _
  have hentry := hent _ hgetmem
  have htne : t ≠ "" := by
    obtain ⟨rr, hrr, hrrt⟩ := hentry.2.2.2.1
    have hmem := (hrows rr hrr).2.2.2
    rw [← hkey, ← hrrt]
    intro hbad
    rw [hbad] at hmem
    exact absurd hmem (by decide)
  have hlen0 : ¬ results.length = 0 := by
    intro h0
    exact hne (List.length_eq_zero.mp h0)
  have hps : processSuggestions results = some (t, slugify t) := by
    unfold processSuggestions
    rw [if_neg hlen0, foldl_suggestionStep, hfs]
    simp [htne]
  refine ⟨t, hps, ?_, i, hi, hkey, ?_, ?_, ?_, ?_⟩
  · obtain ⟨rr, hrr, hrrt⟩ := hentry.2.2.2.1
    exact ⟨rr, hrr, by rw [hrrt, hkey]⟩
  · rw [← hkey]
    exact hentry.2.2.2.2.1
  · rw [← hkey]
    exact hentry.2.2.2.2.2
  · intro p hp
    rw [haccm]
    exact hall p hp
  · intro j hj hji
    rw [haccm]
    exact hfirst j hj hji

/-- Concrete two-topic result list for the C10 witness: Verbal Ability
has aggregate accuracy 0, below Quantitative Aptitude at 50. -/
def demoResults : List TestResult :=
  [⟨"r1", "c1", "Quantitative Aptitude", 1, 2, "u"⟩,
   ⟨"r2", "c2", "Verbal Ability", 0, 2, "u"⟩]

/-- Witness for the amended C10 on the concrete result list. -/
theorem suggestion_picks_min_accuracy_witness :
    SuggestionCorrect demoResults :=
  suggestion_picks_min_accuracy demoResults (by decide) (by decide)

end Aptii

